import Mathlib

/-!
Verification of `service_vm/kernel/extract_microdroid_kernel_hashes.py`.

The script invokes `avbtool print_partition_digests --image <kernel>`,
parses the captured combined stdout/stderr into a partition-name → hex-digest
map, applies an all-or-nothing fallback when the key set is not exactly
{boot, initrd_normal, initrd_debug}, and prints a generated Rust source file
whose three constants hold the digests as byte-array literals.

The embedding below models strings as `List Char`; Python `dict` (insertion
ordered, last-write-wins on values) is modelled as an association list with
an update-or-append insert.  The subprocess is modelled by its observable
result: `none` for a launch failure (`FileNotFoundError` propagating out of
`subprocess.Popen`) and `some (code, out)` for a completed child with exit
status `code` and combined decoded output `out`.
-/

namespace MicrodroidHashes

/-- The partition-name constant `PARTITION_NAME_BOOT = 'boot'`. -/
def PARTITION_NAME_BOOT : List Char := "boot".data

/-- The partition-name constant `PARTITION_NAME_INITRD_NORMAL = 'initrd_normal'`. -/
def PARTITION_NAME_INITRD_NORMAL : List Char := "initrd_normal".data

/-- The partition-name constant `PARTITION_NAME_INITRD_DEBUG = 'initrd_debug'`. -/
def PARTITION_NAME_INITRD_DEBUG : List Char := "initrd_debug".data

/-- Python `str.split(sep)` for a single-character separator `sep`:
`splitOnChar sep s` splits `s` at every occurrence of `sep`, keeping empty
segments, and returns `[[]]` on the empty string (as Python does). -/
def splitOnChar (sep : Char) (s : List Char) : List (List Char) :=
  s.foldr
    (fun c acc =>
      match acc with
      | [] => [[]]
      | seg :: segs => if c = sep then [] :: seg :: segs else (c :: seg) :: segs)
    [[]]

/-- Python `line.replace(" ", "")`: every space character is removed
(note: only `' '`, not tabs or other whitespace). -/
def removeSpaces (s : List Char) : List Char :=
  s.filter (fun c => c != ' ')

/-- One iteration of the parsing loop in `collect_hashes`: the line is
space-stripped and split on `':'`; exactly two segments yield a
`(partition_name, hash)` pair, anything else is ignored. -/
def parseLine (line : List Char) : Option (List Char × List Char) :=
  match splitOnChar ':' (removeSpaces line) with
  | [n, d] => some (n, d)
  | _ => none

/-- A Python `dict` from partition names to digests, as an ordered
association list with unique keys. -/
abbrev Dict := List (List Char × List Char)

/-- Python `hashes[k]` as an `Option`: the value stored at key `k`. -/
def dictLookup : Dict → List Char → Option (List Char)
  | [], _ => none
  | (k', v) :: rest, k => if k' = k then some v else dictLookup rest k

/-- Python `k in hashes`. -/
def dictContains (m : Dict) (k : List Char) : Bool :=
  (dictLookup m k).isSome

/-- Python `hashes[k] = v`: update the value in place when the key exists
(keys are unique, so the first occurrence is the only one), otherwise
append the new pair at the end (insertion order is preserved). -/
def dictInsert : Dict → List Char → List Char → Dict
  | [], k, v => [(k, v)]
  | (k', v') :: rest, k, v =>
    if k' = k then (k, v) :: rest else (k', v') :: dictInsert rest k v

/-- Python `hashes.keys()` (as a list; the key set is this list up to order). -/
def dictKeys (m : Dict) : List (List Char) :=
  m.map (fun p => p.1)

/-- The parsing loop of `collect_hashes`, applied to the decoded subprocess
output already split into lines. -/
def collect_hashes (lines : List (List Char)) : Dict :=
  lines.foldl
    (fun m line =>
      match parseLine line with
      | some (n, d) => dictInsert m n d
      | none => m)
    []

/-- The Python test `hashes.keys() == {BOOT, INITRD_NORMAL, INITRD_DEBUG}`
(the `main` fallback branch runs when this is `false`): set equality of the
key set with the expected three-name set. -/
def keysMatch (m : Dict) : Bool :=
  (dictKeys m).all
      (fun k => k = PARTITION_NAME_BOOT || k = PARTITION_NAME_INITRD_NORMAL
        || k = PARTITION_NAME_INITRD_DEBUG)
    && (dictKeys m).contains PARTITION_NAME_BOOT
    && (dictKeys m).contains PARTITION_NAME_INITRD_NORMAL
    && (dictKeys m).contains PARTITION_NAME_INITRD_DEBUG

/-- The fallback block of `main` (lines 35–41): when the key set is not
exactly the expected three names, the three expected keys are assigned the
empty digest, in source order boot, initrd_normal, initrd_debug; otherwise
the map is left untouched. -/
def fallbackPolicy (m : Dict) : Dict :=
  if keysMatch m then m
  else
    dictInsert
      (dictInsert (dictInsert m PARTITION_NAME_BOOT []) PARTITION_NAME_INITRD_NORMAL [])
      PARTITION_NAME_INITRD_DEBUG []

/-- Python `range(0, n, 2)`: the even numbers below `n`, in order. -/
def range2 (n : Nat) : List Nat :=
  (List.range ((n + 1) / 2)).map (fun k => 2 * k)

/-- The list comprehension of `format_hex_string`: one token per character
pair `hex_string[i:i+2]`, the token at character offset `i` being
`"\n0x" + pair` when `i % 32 == 0` and `"0x" + pair` otherwise. -/
def hexTokens (h : List Char) : List (List Char) :=
  (range2 h.length).map
    (fun i =>
      (if i % 32 = 0 then ['\n', '0', 'x'] else ['0', 'x']) ++ (h.drop i).take 2)

/-- Python `sep.join(tokens)`. -/
def joinSep (sep : List Char) : List (List Char) → List Char
  | [] => []
  | [x] => x
  | x :: y :: xs => x ++ sep ++ joinSep sep (y :: xs)

/-- The separator `", "` used by `format_hex_string`. -/
def commaSep : List Char := [',', ' ']

/-- `format_hex_string`: `none` models the `assert len(hex_string) % 2 == 0`
failing (an `AssertionError` aborting the program before the function
produces any output); otherwise the joined token list. -/
def format_hex_string (h : List Char) : Option (List Char) :=
  if h.length % 2 = 0 then some (joinSep commaSep (hexTokens h)) else none

/-- The ways the modelled program can die. -/
inductive PyErr where
  | launch : PyErr
  | assertFail : PyErr
  | keyError : PyErr
deriving DecidableEq, Repr

/-- First print call of `main`. -/
def headerLine1 : List Char :=
  "//! This file is generated by extract_microdroid_kernel_hashes.py.".data

/-- Second print call of `main` (the trailing `\n` is explicit in the source). -/
def headerLine2 : List Char :=
  "//! It contains the hashes of the kernel and initrds.\n".data

/-- Third print call of `main`. -/
def headerLine3 : List Char :=
  "#![no_std]\n#![allow(missing_docs)]\n".data

/-- The comment printed when the fallback branch is taken. -/
def commentLine : List Char :=
  "/// The kernel is empty, no hashes are available.".data

/-- The `KERNEL_HASH` declaration print call, around a formatted digest. -/
def kernelDecl (s : List Char) : List Char :=
  "pub const KERNEL_HASH: &[u8] = &[".data ++ s ++ "];\n".data

/-- The `INITRD_NORMAL_HASH` declaration print call. -/
def initrdNormalDecl (s : List Char) : List Char :=
  "pub const INITRD_NORMAL_HASH: &[u8] = &[".data ++ s ++ "];\n".data

/-- The `INITRD_DEBUG_HASH` declaration print call. -/
def initrdDebugDecl (s : List Char) : List Char :=
  "pub const INITRD_DEBUG_HASH: &[u8] = &[".data ++ s ++ "];".data

/-- The observable result of the `avbtool` subprocess: `none` when the tool
cannot be launched (`FileNotFoundError` from `Popen`), `some (code, out)`
when the child ran to completion with exit status `code` and combined
decoded stdout/stderr `out`.  `collect_hashes` in the source never reads
`proc.returncode`, which the model makes explicit by ignoring `code`. -/
abbrev SubResult := Option (Int × List Char)

/-- `collect_hashes(avbtool, kernel_image_path)` as a function of the
subprocess's observable result: a launch failure propagates
(`Except.error`), a completed child has its output split on newlines and
parsed regardless of exit status. -/
def collectHashesRun (sub : SubResult) : Except PyErr Dict :=
  match sub with
  | none => Except.error PyErr.launch
  | some (_, out) => Except.ok (collect_hashes (splitOnChar '\n' out))

/-- The map `collect_hashes` produced for a given subprocess result
(only meaningful when the run did not fail at launch). -/
def collectedMap (sub : SubResult) : Dict :=
  match sub with
  | none => []
  | some (_, out) => collect_hashes (splitOnChar '\n' out)

/-- `main`, as a function of the subprocess's observable result, returning
the list of `print` calls made (each element one `print` argument) and
`none` for a clean exit or the error that killed the program.  Output
already printed when an error is raised is retained, as in the source. -/
def runMain (sub : SubResult) : List (List Char) × Option PyErr :=
  match collectHashesRun sub with
  | Except.error e => ([], some e)
  | Except.ok hashes0 =>
    let header := [headerLine1, headerLine2, headerLine3]
    let pre := header ++ (if keysMatch hashes0 then [] else [commentLine])
    let hashes := fallbackPolicy hashes0
    match dictLookup hashes PARTITION_NAME_BOOT with
    | none => (pre, some PyErr.keyError)
    | some hb =>
      match format_hex_string hb with
      | none => (pre, some PyErr.assertFail)
      | some sb =>
        match dictLookup hashes PARTITION_NAME_INITRD_NORMAL with
        | none => (pre ++ [kernelDecl sb], some PyErr.keyError)
        | some hn =>
          match format_hex_string hn with
          | none => (pre ++ [kernelDecl sb], some PyErr.assertFail)
          | some sn =>
            match dictLookup hashes PARTITION_NAME_INITRD_DEBUG with
            | none => (pre ++ [kernelDecl sb, initrdNormalDecl sn], some PyErr.keyError)
            | some hd =>
              match format_hex_string hd with
              | none => (pre ++ [kernelDecl sb, initrdNormalDecl sn], some PyErr.assertFail)
              | some sd =>
                (pre ++ [kernelDecl sb, initrdNormalDecl sn, initrdDebugDecl sd], none)

/-- `"pub const "`, the head shared by the three constant declarations. -/
def pubConstHead : List Char := "pub const ".data

/-- Whether a printed string is one of the generated constant declarations. -/
def isPubConst (l : List Char) : Bool :=
  pubConstHead.isPrefixOf l

/-- A variant of `parseLine` following the spec's words instead of the
source: the spec says a line is significant when, after removing ALL
whitespace (not only spaces), splitting on `':'` yields exactly two
segments, the first becoming the name.  Used only to compare against the
source-derived `parseLine`. -/
def parseLineSpecWhitespace (line : List Char) : Option (List Char × List Char) :=
  match splitOnChar ':' (line.filter (fun c => !c.isWhitespace)) with
  | [n, d] => some (n, d)
  | _ => none

/-- A hexadecimal digit character (the alphabet of the digest strings the
spec's data-model invariant describes). -/
def isHexChar (c : Char) : Bool :=
  c.isDigit || ('a' ≤ c && c ≤ 'f') || ('A' ≤ c && c ≤ 'F')

/-! ### Association-list lemmas -/

theorem dictLookup_append_of_none {m₁ : Dict} {k : List Char}
    (h : dictLookup m₁ k = none) (m₂ : Dict) :
    dictLookup (m₁ ++ m₂) k = dictLookup m₂ k := by
  induction m₁ with
  | nil => rfl
  | cons a rest ih =>
    obtain ⟨k0, v0⟩ := a
    by_cases ha : k0 = k
    · simp [dictLookup, ha] at h
    · simp [dictLookup, ha] at h ⊢
      exact ih h

theorem dictLookup_insert_self (m : Dict) (k v : List Char) :
    dictLookup (dictInsert m k v) k = some v := by
  induction m with
  | nil => simp [dictInsert, dictLookup]
  | cons a rest ih =>
    obtain ⟨k0, v0⟩ := a
    by_cases ha : k0 = k
    · simp [dictInsert, dictLookup, ha]
    · simp [dictInsert, dictLookup, ha, ih]

theorem dictLookup_insert_ne (m : Dict) {k k' : List Char} (v : List Char)
    (h : k' ≠ k) : dictLookup (dictInsert m k v) k' = dictLookup m k' := by
  induction m with
  | nil => simp [dictInsert, dictLookup, Ne.symm h]
  | cons a rest ih =>
    obtain ⟨k0, v0⟩ := a
    by_cases ha : k0 = k
    · subst ha
      simp [dictInsert, dictLookup, Ne.symm h]
    · by_cases ha' : k0 = k'
      · simp [dictInsert, dictLookup, ha, ha', h]
      · simp [dictInsert, dictLookup, ha, ha', ih]

theorem dictContains_insert (m : Dict) {k' : List Char} (k v : List Char)
    (h : dictContains m k' = true) : dictContains (dictInsert m k v) k' = true := by
  unfold dictContains
  by_cases hk : k' = k
  · rw [hk, dictLookup_insert_self]; rfl
  · rw [dictLookup_insert_ne m v hk]; exact h

theorem dictKeys_contains_iff (m : Dict) (k : List Char) :
    (dictKeys m).contains k = true ↔ dictContains m k = true := by
  induction m with
  | nil => simp [dictKeys, dictContains, dictLookup]
  | cons a rest ih =>
    obtain ⟨k0, v0⟩ := a
    by_cases ha : k0 = k
    · simp [dictKeys, dictContains, dictLookup, ha]
    · simp only [dictKeys, dictContains, List.map_cons, List.contains_cons,
        dictLookup, ha, if_neg ha, Bool.or_eq_true, beq_iff_eq] at ih ⊢
      constructor
      · intro hor
        rcases hor with hk | hrest
        · exact absurd hk.symm ha
        · exact ih.mp hrest
      · intro hs
        exact Or.inr (ih.mpr hs)

theorem keysMatch_contains {m : Dict} (h : keysMatch m = true) :
    dictContains m PARTITION_NAME_BOOT = true
      ∧ dictContains m PARTITION_NAME_INITRD_NORMAL = true
      ∧ dictContains m PARTITION_NAME_INITRD_DEBUG = true := by
  unfold keysMatch at h
  simp only [Bool.and_eq_true] at h
  exact ⟨(dictKeys_contains_iff m _).mp h.1.1.2,
    (dictKeys_contains_iff m _).mp h.1.2,
    (dictKeys_contains_iff m _).mp h.2⟩

theorem dictContains_insert_self (m : Dict) (k v : List Char) :
    dictContains (dictInsert m k v) k = true := by
  unfold dictContains
  rw [dictLookup_insert_self]
  rfl

/-! ### Splitting lemmas -/

theorem splitOnChar_nil (sep : Char) : splitOnChar sep [] = [[]] := rfl

theorem splitOnChar_cons (sep c : Char) (s : List Char) :
    splitOnChar sep (c :: s) =
      match splitOnChar sep s with
      | [] => [[]]
      | seg :: segs => if c = sep then [] :: seg :: segs else (c :: seg) :: segs := rfl

theorem splitOnChar_ne_nil (sep : Char) (s : List Char) : splitOnChar sep s ≠ [] := by
  induction s with
  | nil => simp [splitOnChar_nil]
  | cons c rest ih =>
    rw [splitOnChar_cons]
    cases hr : splitOnChar sep rest with
    | nil => simp
    | cons seg segs =>
      by_cases hc : c = sep <;> simp [hc]

theorem splitOnChar_eq_single (sep : Char) (s a : List Char) :
    splitOnChar sep s = [a] ↔ s = a ∧ sep ∉ a := by
  induction s generalizing a with
  | nil =>
    rw [splitOnChar_nil]
    constructor
    · intro h
      obtain rfl : a = [] := by simpa using h.symm
      simp
    · rintro ⟨rfl, _⟩
      rfl
  | cons c rest ih =>
    rw [splitOnChar_cons]
    obtain ⟨seg, segs, hr⟩ := List.exists_cons_of_ne_nil (splitOnChar_ne_nil sep rest)
    rw [hr]
    dsimp only
    by_cases hc : c = sep
    · subst hc
      rw [if_pos rfl]
      constructor
      · intro h
        simp at h
      · rintro ⟨rfl, hmem⟩
        exact absurd (List.mem_cons_self c rest) hmem
    · rw [if_neg hc]
      constructor
      · intro h
        obtain ⟨h1, h2⟩ : c :: seg = a ∧ segs = [] := by simpa using h
        subst h2
        obtain ⟨hrest, hns⟩ := (ih seg).mp hr
        subst hrest
        have hsc : ¬sep = c := fun hq => hc hq.symm
        exact ⟨h1.symm ▸ rfl, by
          rw [← h1]
          simp [hns, hsc]⟩
      · rintro ⟨rfl, hmem⟩
        have hns : sep ∉ rest := fun hmm => hmem (List.mem_cons_of_mem _ hmm)
        have : splitOnChar sep rest = [rest] := (ih rest).mpr ⟨rfl, hns⟩
        rw [hr] at this
        obtain ⟨h1, h2⟩ : seg = rest ∧ segs = [] := by simpa using this
        subst h1
        subst h2
        rfl

theorem splitOnChar_eq_pair (sep : Char) (s a b : List Char) :
    splitOnChar sep s = [a, b] ↔ s = a ++ sep :: b ∧ sep ∉ a ∧ sep ∉ b := by
  induction s generalizing a with
  | nil =>
    rw [splitOnChar_nil]
    constructor
    · intro h
      simp at h
    · rintro ⟨h, _⟩
      exact absurd h.symm (by simp)
  | cons c rest ih =>
    rw [splitOnChar_cons]
    obtain ⟨seg, segs, hr⟩ := List.exists_cons_of_ne_nil (splitOnChar_ne_nil sep rest)
    rw [hr]
    dsimp only
    by_cases hc : c = sep
    · subst hc
      rw [if_pos rfl]
      constructor
      · intro h
        obtain ⟨h1, h2, h3⟩ : [] = a ∧ seg = b ∧ segs = [] := by simpa using h
        subst h3
        obtain ⟨hrest, hnb⟩ := (splitOnChar_eq_single c rest seg).mp hr
        subst hrest
        subst h2
        exact ⟨by rw [← h1]; rfl, by rw [← h1]; simp, hnb⟩
      · rintro ⟨hs, hna, hnb⟩
        cases a with
        | cons x xs =>
          obtain ⟨hx, _⟩ : c = x ∧ rest = xs ++ c :: b := by simpa using hs
          exact absurd (hx ▸ List.mem_cons_self x xs) hna
        | nil =>
          have hrest : rest = b := by simpa using hs
          have : splitOnChar c rest = [rest] := (splitOnChar_eq_single c rest rest).mpr
            ⟨rfl, hrest.symm ▸ hnb⟩
          rw [hr] at this
          obtain ⟨h1, h2⟩ : seg = rest ∧ segs = [] := by simpa using this
          subst h1
          subst h2
          simp [hrest]
    · rw [if_neg hc]
      constructor
      · intro h
        obtain ⟨h1, h2⟩ : c :: seg = a ∧ segs = [b] := by simpa using h
        subst h2
        obtain ⟨hrest, hns, hnb⟩ := (ih seg).mp hr
        subst hrest
        have hsc : ¬sep = c := fun hq => hc hq.symm
        refine ⟨by rw [← h1]; rfl, ?_, hnb⟩
        rw [← h1]
        simp [hns, hsc]
      · rintro ⟨hs, hna, hnb⟩
        cases a with
        | nil =>
          obtain ⟨hx, _⟩ : c = sep ∧ rest = b := by simpa using hs
          exact absurd hx hc
        | cons x xs =>
          obtain ⟨hx, hrest⟩ : c = x ∧ rest = xs ++ sep :: b := by simpa using hs
          have hnxs : sep ∉ xs := fun hmm => hna (List.mem_cons_of_mem _ hmm)
          have : splitOnChar sep rest = [xs, b] := (ih xs).mpr ⟨hrest, hnxs, hnb⟩
          rw [hr] at this
          obtain ⟨h1, h2⟩ : seg = xs ∧ segs = [b] := by simpa using this
          subst h1
          subst h2
          simp [hx]

theorem parseLine_eq_some_iff (l n d : List Char) :
    parseLine l = some (n, d) ↔ splitOnChar ':' (removeSpaces l) = [n, d] := by
  unfold parseLine
  cases hsp : splitOnChar ':' (removeSpaces l) with
  | nil => simp
  | cons seg segs =>
    cases segs with
    | nil => simp
    | cons seg2 segs2 =>
      cases segs2 with
      | nil => simp [eq_comm, and_comm]
      | cons seg3 segs3 => simp

/-! ### Formatter lemmas -/

theorem range2_even {n : Nat} (h : n % 2 = 0) :
    range2 n = (List.range (n / 2)).map (fun k => 2 * k) := by
  unfold range2
  rw [show (n + 1) / 2 = n / 2 from by omega]

theorem hexTokens_eq_map {h : List Char} (he : h.length % 2 = 0) :
    hexTokens h =
      (List.range (h.length / 2)).map
        (fun k =>
          (if k % 16 = 0 then ['\n', '0', 'x'] else ['0', 'x']) ++ (h.drop (2 * k)).take 2) := by
  unfold hexTokens
  rw [range2_even he, List.map_map]
  refine List.map_congr_left ?_
  intro k _
  have h32 : 2 * k % 32 = 0 ↔ k % 16 = 0 := by omega
  by_cases h16 : k % 16 = 0
  · simp [Function.comp, h16, h32.mpr h16]
  · have hnot : ¬2 * k % 32 = 0 := fun hq => h16 (h32.mp hq)
    simp [Function.comp, h16, hnot]

theorem hexTokens_length {h : List Char} (he : h.length % 2 = 0) :
    (hexTokens h).length = h.length / 2 := by
  unfold hexTokens range2
  simp
  omega

theorem joinSep_filter (p : Char → Bool) (sep : List Char) (l : List (List Char)) :
    (joinSep sep l).filter p = joinSep (sep.filter p) (l.map (List.filter p)) := by
  induction l with
  | nil => rfl
  | cons x xs ih =>
    cases xs with
    | nil => rfl
    | cons y ys => simp [joinSep, List.filter_append, ih]

theorem joinSep_count_zero_sep (c : Char) (sep : List Char) (l : List (List Char))
    (hsep : sep.count c = 0) :
    (joinSep sep l).count c = (l.map (List.count c)).sum := by
  induction l with
  | nil => rfl
  | cons x xs ih =>
    cases xs with
    | nil => simp [joinSep]
    | cons y ys =>
      simp [joinSep, List.count_append, hsep] at ih ⊢
      omega

theorem isHexChar_ne_newline {c : Char} (h : isHexChar c = true) : ¬c = '\n' := by
  intro heq
  subst heq
  exact absurd h (by decide)

theorem filter_newline_eq_self_of_hex {h : List Char} (hx : ∀ c ∈ h, isHexChar c = true)
    {sub : List Char} (hsub : sub ⊆ h) :
    sub.filter (fun c => c != '\n') = sub := by
  rw [List.filter_eq_self]
  intro a ha
  simpa using isHexChar_ne_newline (hx a (hsub ha))

theorem count_newline_zero_of_hex {h : List Char} (hx : ∀ c ∈ h, isHexChar c = true)
    {sub : List Char} (hsub : sub ⊆ h) : sub.count '\n' = 0 := by
  rw [List.count_eq_zero]
  intro hmem
  exact isHexChar_ne_newline (hx _ (hsub hmem)) rfl

theorem sum_map_ite_mod16 (l : List Nat) :
    (l.map (fun k => if k % 16 = 0 then (1 : Nat) else 0)).sum
      = (l.filter (fun k => k % 16 = 0)).length := by
  induction l with
  | nil => rfl
  | cons x xs ih => by_cases hp : x % 16 = 0 <;> simp [hp, ih, Nat.add_comm]

/-! ### Emitter lemmas -/

theorem isPrefixOf_append_of {p q : List Char} (t : List Char)
    (h : p.isPrefixOf q = true) : p.isPrefixOf (q ++ t) = true := by
  rw [List.isPrefixOf_iff_prefix] at h ⊢
  exact h.trans (List.prefix_append q t)

theorem isPubConst_kernelDecl (s : List Char) : isPubConst (kernelDecl s) = true := by
  show pubConstHead.isPrefixOf
    (("pub const KERNEL_HASH: &[u8] = &[".data ++ s) ++ "];\n".data) = true
  exact isPrefixOf_append_of _ (isPrefixOf_append_of _ (by decide))

theorem isPubConst_initrdNormalDecl (s : List Char) :
    isPubConst (initrdNormalDecl s) = true := by
  show pubConstHead.isPrefixOf
    (("pub const INITRD_NORMAL_HASH: &[u8] = &[".data ++ s) ++ "];\n".data) = true
  exact isPrefixOf_append_of _ (isPrefixOf_append_of _ (by decide))

theorem isPubConst_initrdDebugDecl (s : List Char) :
    isPubConst (initrdDebugDecl s) = true := by
  show pubConstHead.isPrefixOf
    (("pub const INITRD_DEBUG_HASH: &[u8] = &[".data ++ s) ++ "];".data) = true
  exact isPrefixOf_append_of _ (isPrefixOf_append_of _ (by decide))

theorem isPubConst_headerLine1 : isPubConst headerLine1 = false := by decide

theorem isPubConst_headerLine2 : isPubConst headerLine2 = false := by decide

theorem isPubConst_headerLine3 : isPubConst headerLine3 = false := by decide

theorem isPubConst_commentLine : isPubConst commentLine = false := by decide

theorem commentLine_ne_kernelDecl (s : List Char) : commentLine ≠ kernelDecl s := by
  intro h
  have := isPubConst_kernelDecl s
  rw [← h, isPubConst_commentLine] at this
  exact absurd this (by decide)

theorem commentLine_ne_initrdNormalDecl (s : List Char) :
    commentLine ≠ initrdNormalDecl s := by
  intro h
  have := isPubConst_initrdNormalDecl s
  rw [← h, isPubConst_commentLine] at this
  exact absurd this (by decide)

theorem commentLine_ne_initrdDebugDecl (s : List Char) :
    commentLine ≠ initrdDebugDecl s := by
  intro h
  have := isPubConst_initrdDebugDecl s
  rw [← h, isPubConst_commentLine] at this
  exact absurd this (by decide)

/-! ### Claim theorems -/

/-- C1: when the collected map's key set is exactly
{boot, initrd_normal, initrd_debug} the fallback block leaves the map (and
hence all three digests) unchanged; for any other key set it maps all three
expected keys to the empty digest — never a partial merge. -/
theorem fallbackPolicy_exact_or_all_empty (m : Dict) :
    (keysMatch m = true → fallbackPolicy m = m)
      ∧ (keysMatch m = false →
          dictLookup (fallbackPolicy m) PARTITION_NAME_BOOT = some []
            ∧ dictLookup (fallbackPolicy m) PARTITION_NAME_INITRD_NORMAL = some []
            ∧ dictLookup (fallbackPolicy m) PARTITION_NAME_INITRD_DEBUG = some []) := by
  constructor
  · intro h
    simp [fallbackPolicy, h]
  · intro h
    unfold fallbackPolicy
    rw [if_neg (by simp [h])]
    refine ⟨?_, ?_, ?_⟩
    · rw [dictLookup_insert_ne _ _ (by decide), dictLookup_insert_ne _ _ (by decide),
        dictLookup_insert_self]
    · rw [dictLookup_insert_ne _ _ (by decide), dictLookup_insert_self]
    · rw [dictLookup_insert_self]

/-- Witness for C1 at two concrete maps: one with exactly the expected key
set (left unchanged) and one with a single stray key (all three forced
empty). -/
theorem fallbackPolicy_exact_or_all_empty_witness :
    (keysMatch [(PARTITION_NAME_BOOT, "aa".data), (PARTITION_NAME_INITRD_NORMAL, "bb".data),
          (PARTITION_NAME_INITRD_DEBUG, "cc".data)] = true
        ∧ fallbackPolicy [(PARTITION_NAME_BOOT, "aa".data),
            (PARTITION_NAME_INITRD_NORMAL, "bb".data),
            (PARTITION_NAME_INITRD_DEBUG, "cc".data)] =
          [(PARTITION_NAME_BOOT, "aa".data), (PARTITION_NAME_INITRD_NORMAL, "bb".data),
            (PARTITION_NAME_INITRD_DEBUG, "cc".data)])
      ∧ (keysMatch [("foo".data, "xx".data)] = false
        ∧ dictLookup (fallbackPolicy [("foo".data, "xx".data)]) PARTITION_NAME_BOOT = some []
          ∧ dictLookup (fallbackPolicy [("foo".data, "xx".data)])
              PARTITION_NAME_INITRD_NORMAL = some []
          ∧ dictLookup (fallbackPolicy [("foo".data, "xx".data)])
              PARTITION_NAME_INITRD_DEBUG = some []) :=
  ⟨⟨by decide, (fallbackPolicy_exact_or_all_empty _).1 (by decide)⟩,
    ⟨by decide, (fallbackPolicy_exact_or_all_empty _).2 (by decide)⟩⟩

/-- C2 counterexample: with input map {"foo": "xx"} the fallback branch is
taken, yet the resulting map still contains the unexpected key "foo" — the
code never discards keys, so the result does not contain *exactly* the
three expected names. -/
theorem fallbackPolicy_retains_unexpected_key :
    keysMatch [("foo".data, "xx".data)] = false
      ∧ (dictKeys (fallbackPolicy [("foo".data, "xx".data)])).contains "foo".data = true
      ∧ "foo".data ≠ PARTITION_NAME_BOOT
      ∧ "foo".data ≠ PARTITION_NAME_INITRD_NORMAL
      ∧ "foo".data ≠ PARTITION_NAME_INITRD_DEBUG := by decide

/-- C2 amended: for every input map the fallback block's result contains
the three expected partition names; when the fallback branch is taken
(key set not exactly the expected three) the three expected keys are set
to empty-string digests, but unexpected keys present in the input are
retained, not discarded (the emitter simply never reads them). -/
theorem fallbackPolicy_contains_expected_and_retains (m : Dict) :
    dictContains (fallbackPolicy m) PARTITION_NAME_BOOT = true
      ∧ dictContains (fallbackPolicy m) PARTITION_NAME_INITRD_NORMAL = true
      ∧ dictContains (fallbackPolicy m) PARTITION_NAME_INITRD_DEBUG = true
      ∧ (keysMatch m = false →
          dictLookup (fallbackPolicy m) PARTITION_NAME_BOOT = some []
            ∧ dictLookup (fallbackPolicy m) PARTITION_NAME_INITRD_NORMAL = some []
            ∧ dictLookup (fallbackPolicy m) PARTITION_NAME_INITRD_DEBUG = some [])
      ∧ (∀ k, dictContains m k = true → dictContains (fallbackPolicy m) k = true) := by
  unfold fallbackPolicy
  cases hm : keysMatch m with
  | true =>
    rw [if_pos rfl]
    obtain ⟨hb, hn, hd⟩ := keysMatch_contains hm
    exact ⟨hb, hn, hd, fun hfalse => absurd hfalse (by decide), fun k hk => hk⟩
  | false =>
    rw [if_neg (by simp)]
    refine ⟨dictContains_insert _ _ _ (dictContains_insert _ _ _ (dictContains_insert_self _ _ _)),
      dictContains_insert _ _ _ (dictContains_insert_self _ _ _),
      dictContains_insert_self _ _ _,
      fun hfb => ⟨?_, ?_, ?_⟩,
      fun k hk =>
        dictContains_insert _ _ _ (dictContains_insert _ _ _ (dictContains_insert _ _ _ hk))⟩
    · rw [dictLookup_insert_ne _ _ (by decide), dictLookup_insert_ne _ _ (by decide),
        dictLookup_insert_self]
    · rw [dictLookup_insert_ne _ _ (by decide), dictLookup_insert_self]
    · rw [dictLookup_insert_self]

/-- Witness for the amended C2: the unconditional containment part at the
empty map (the collector's empty-output case), and the empty-digest and
retention parts at the concrete map {"foo": "xx"}, discharging the
keysMatch and containment hypotheses there. -/
theorem fallbackPolicy_contains_expected_and_retains_witness :
    (dictContains (fallbackPolicy []) PARTITION_NAME_BOOT = true
        ∧ dictContains (fallbackPolicy []) PARTITION_NAME_INITRD_NORMAL = true
        ∧ dictContains (fallbackPolicy []) PARTITION_NAME_INITRD_DEBUG = true)
      ∧ (keysMatch [("foo".data, "xx".data)] = false
        ∧ (dictLookup (fallbackPolicy [("foo".data, "xx".data)]) PARTITION_NAME_BOOT = some []
          ∧ dictLookup (fallbackPolicy [("foo".data, "xx".data)])
              PARTITION_NAME_INITRD_NORMAL = some []
          ∧ dictLookup (fallbackPolicy [("foo".data, "xx".data)])
              PARTITION_NAME_INITRD_DEBUG = some []))
      ∧ (dictContains [("foo".data, "xx".data)] "foo".data = true
        ∧ dictContains (fallbackPolicy [("foo".data, "xx".data)]) "foo".data = true) :=
  ⟨⟨(fallbackPolicy_contains_expected_and_retains []).1,
      (fallbackPolicy_contains_expected_and_retains []).2.1,
      (fallbackPolicy_contains_expected_and_retains []).2.2.1⟩,
    ⟨by decide, (fallbackPolicy_contains_expected_and_retains _).2.2.2.1 (by decide)⟩,
    ⟨by decide, (fallbackPolicy_contains_expected_and_retains _).2.2.2.2 _ (by decide)⟩⟩

/-- C10: a line consisting of a lone colon is accepted by the parsing loop:
both segments are empty, so the empty string is inserted as a partition
name with an empty digest — neither segment is required to be non-empty. -/
theorem collect_hashes_accepts_empty_segments :
    parseLine [':'] = some ([], [])
      ∧ dictLookup (collect_hashes [[':']]) [] = some [] := by decide

/-- C3 counterexample: on the line "boot\t:aa" the code keeps the tab in
the partition name (`replace(" ", "")` removes only spaces), while the
claim's whitespace-stripped split would make the name "boot"; the parser
therefore disagrees with the claim on this line. -/
theorem parseLine_tab_refutes_whitespace_claim :
    parseLine "boot\t:aa".data = some ("boot\t".data, "aa".data)
      ∧ parseLineSpecWhitespace "boot\t:aa".data = some ("boot".data, "aa".data)
      ∧ parseLine "boot\t:aa".data ≠ parseLineSpecWhitespace "boot\t:aa".data := by decide

/-- C3 amended: a line contributes the pair (n, d) to the map exactly when
the line with all SPACE characters (only `' '`, not all whitespace) removed
is n ++ ":" ++ d with no other colon — i.e. splitting the space-stripped
line on `':'` yields exactly the two segments n and d; every other line is
silently ignored. -/
theorem parseLine_pair_characterization (l n d : List Char) :
    parseLine l = some (n, d) ↔
      removeSpaces l = n ++ ':' :: d ∧ ':' ∉ n ∧ ':' ∉ d :=
  (parseLine_eq_some_iff l n d).trans (splitOnChar_eq_pair ':' (removeSpaces l) n d)

/-- C7: `format_hex_string` hits its `assert` (modelled as `none`, raised
before the function builds any output) exactly on odd-length input; every
even-length input, the empty string included, is formatted without error. -/
theorem format_hex_string_assert_iff_odd (h : List Char) :
    format_hex_string h = none ↔ h.length % 2 = 1 := by
  unfold format_hex_string
  rcases Nat.mod_two_eq_zero_or_one h.length with he | he
  · simp [he]
  · simp [he]

/-- C8: the empty hex string formats to the empty output without error, and
its token list is empty. -/
theorem format_hex_string_empty :
    format_hex_string [] = some [] ∧ hexTokens [] = [] := by decide

/-- C5: for every even-length hex string the formatter emits exactly
len/2 byte tokens joined by ", ": with the line-break characters set aside
(they are claim C6's concern), the output is the ", "-join of the tokens
"0x" ++ h[2k] ++ h[2k+1], one per byte, in original order. -/
theorem format_hex_string_byte_tokens (h : List Char) (he : h.length % 2 = 0)
    (hx : ∀ c ∈ h, isHexChar c = true) :
    (hexTokens h).length = h.length / 2
      ∧ (format_hex_string h).map (List.filter (fun c => c != '\n')) =
          some (joinSep commaSep
            ((List.range (h.length / 2)).map
              (fun k => '0' :: 'x' :: (h.drop (2 * k)).take 2))) := by
  refine ⟨hexTokens_length he, ?_⟩
  unfold format_hex_string
  rw [if_pos he]
  show some ((joinSep commaSep (hexTokens h)).filter (fun c => c != '\n')) = _
  rw [joinSep_filter]
  have hsep : commaSep.filter (fun c => c != '\n') = commaSep := by decide
  rw [hsep, hexTokens_eq_map he, List.map_map]
  refine congrArg some (congrArg (joinSep commaSep) (List.map_congr_left ?_))
  intro k _
  have hpair : ((h.drop (2 * k)).take 2).filter (fun c => c != '\n') = (h.drop (2 * k)).take 2 :=
    filter_newline_eq_self_of_hex hx
      (List.Subset.trans (List.take_subset _ _) (List.drop_subset _ _))
  by_cases h16 : k % 16 = 0
  · simp [Function.comp, h16, List.filter_append, hpair]
  · simp [Function.comp, h16, List.filter_append, hpair]

/-- Witness for C5 at the concrete hex string "aabbcc". -/
theorem format_hex_string_byte_tokens_witness :
    ("aabbcc".data.length % 2 = 0 ∧ ∀ c ∈ "aabbcc".data, isHexChar c = true)
      ∧ ((hexTokens "aabbcc".data).length = "aabbcc".data.length / 2
        ∧ (format_hex_string "aabbcc".data).map (List.filter (fun c => c != '\n')) =
            some (joinSep commaSep
              ((List.range ("aabbcc".data.length / 2)).map
                (fun k => '0' :: 'x' :: ("aabbcc".data.drop (2 * k)).take 2)))) :=
  ⟨⟨by decide, by decide⟩, format_hex_string_byte_tokens _ (by decide) (by decide)⟩

/-- C6: in the formatter's output a line break sits immediately before the
token of every byte whose 0-indexed position is a multiple of 16 (position
0 included) and nowhere else: the token at index k starts with a newline
iff 16 divides k, and the total number of newline characters in the output
equals the number of such positions. -/
theorem format_hex_string_linebreaks (h : List Char) (he : h.length % 2 = 0)
    (hx : ∀ c ∈ h, isHexChar c = true) :
    (∀ k, ∀ hk : k < (hexTokens h).length,
        (((hexTokens h).get ⟨k, hk⟩).head? = some '\n' ↔ k % 16 = 0))
      ∧ (format_hex_string h).map (List.count '\n') =
          some (((List.range (h.length / 2)).filter (fun k => k % 16 = 0)).length) := by
  constructor
  · rw [hexTokens_eq_map he]
    intro k hk
    rw [List.get_eq_getElem, List.getElem_map, List.getElem_range]
    by_cases h16 : k % 16 = 0
    · simp [h16]
    · simp [h16]
  · unfold format_hex_string
    rw [if_pos he]
    show some ((joinSep commaSep (hexTokens h)).count '\n') = _
    rw [joinSep_count_zero_sep '\n' commaSep _ (by decide), hexTokens_eq_map he, List.map_map]
    refine congrArg some ?_
    rw [show (List.count '\n' ∘ fun k =>
          (if k % 16 = 0 then ['\n', '0', 'x'] else ['0', 'x']) ++ (h.drop (2 * k)).take 2)
        = fun k => List.count '\n'
            ((if k % 16 = 0 then ['\n', '0', 'x'] else ['0', 'x']) ++ (h.drop (2 * k)).take 2)
      from rfl]
    rw [← sum_map_ite_mod16]
    refine congrArg List.sum (List.map_congr_left ?_)
    intro k _
    have hpair : ((h.drop (2 * k)).take 2).count '\n' = 0 :=
      count_newline_zero_of_hex hx
        (List.Subset.trans (List.take_subset _ _) (List.drop_subset _ _))
    by_cases h16 : k % 16 = 0
    · simp [h16, List.count_append, hpair]
    · simp [h16, List.count_append, hpair]

/-- Witness for C6 at an 18-byte hex string crossing the 16-byte boundary
(line breaks before bytes 0 and 16). -/
theorem format_hex_string_linebreaks_witness :
    ("00112233445566778899aabbccddeeff0011".data.length % 2 = 0
        ∧ ∀ c ∈ "00112233445566778899aabbccddeeff0011".data, isHexChar c = true)
      ∧ ((∀ k, ∀ hk : k < (hexTokens "00112233445566778899aabbccddeeff0011".data).length,
            (((hexTokens "00112233445566778899aabbccddeeff0011".data).get ⟨k, hk⟩).head?
                = some '\n' ↔ k % 16 = 0))
        ∧ (format_hex_string "00112233445566778899aabbccddeeff0011".data).map
              (List.count '\n') =
            some (((List.range ("00112233445566778899aabbccddeeff0011".data.length / 2)).filter
              (fun k => k % 16 = 0)).length)) :=
  ⟨⟨by decide, by decide⟩, format_hex_string_linebreaks _ (by decide) (by decide)⟩

/-- C4 counterexample: a child process that exits with status 1 (empty
output) does not make the run fatal — the program completes cleanly and
emits the generated file, because `proc.returncode` is never examined. -/
theorem runMain_nonzero_exit_succeeds :
    (runMain (some (1, []))).2 = none ∧ (runMain (some (1, []))).1 ≠ [] := by decide

/-- C4 amended: only a launch failure (tool not found) is fatal, and it
aborts before any output is printed; the child's exit status is ignored
entirely — a run with any exit status behaves exactly like one with exit
status 0. -/
theorem runMain_launch_fatal_exit_status_ignored :
    runMain none = ([], some PyErr.launch)
      ∧ ∀ (code : Int) (out : List Char),
          runMain (some (code, out)) = runMain (some (0, out)) := by
  refine ⟨rfl, ?_⟩
  intro code out
  rfl

/-- C9: every run that exits cleanly prints exactly three constant
declarations, in the fixed order KERNEL_HASH, INITRD_NORMAL_HASH,
INITRD_DEBUG_HASH, whether or not real hashes were found; and the
"hashes unavailable" comment is printed iff the fallback branch was taken
(the collected key set was not the expected three-name set). -/
theorem runMain_output_shape (sub : SubResult) (hok : (runMain sub).2 = none) :
    (∃ a b c, ((runMain sub).1).filter isPubConst =
        [kernelDecl a, initrdNormalDecl b, initrdDebugDecl c])
      ∧ (commentLine ∈ (runMain sub).1 ↔ keysMatch (collectedMap sub) = false) := by
  cases sub with
  | none => simp [runMain, collectHashesRun] at hok
  | some pr =>
    obtain ⟨code, out⟩ := pr
    simp only [runMain, collectHashesRun, collectedMap] at hok ⊢
    cases hkm : keysMatch (collect_hashes (splitOnChar '\n' out)) with
    | true =>
      simp only [hkm, fallbackPolicy, if_pos rfl, if_true] at hok ⊢
      obtain ⟨hb, hn, hd⟩ := keysMatch_contains hkm
      obtain ⟨vb, hvb⟩ := Option.isSome_iff_exists.mp hb
      obtain ⟨vn, hvn⟩ := Option.isSome_iff_exists.mp hn
      obtain ⟨vd, hvd⟩ := Option.isSome_iff_exists.mp hd
      simp only [hvb, hvn, hvd] at hok ⊢
      cases hfb : format_hex_string vb with
      | none => simp [hfb] at hok
      | some sb =>
        simp only [hfb] at hok ⊢
        cases hfn : format_hex_string vn with
        | none => simp [hfn] at hok
        | some sn =>
          simp only [hfn] at hok ⊢
          cases hfd : format_hex_string vd with
          | none => simp [hfd] at hok
          | some sd =>
            simp only [hfd] at hok ⊢
            refine ⟨⟨sb, sn, sd, ?_⟩, ?_⟩
            · simp [List.filter_append, isPubConst_headerLine1, isPubConst_headerLine2,
                isPubConst_headerLine3, isPubConst_kernelDecl, isPubConst_initrdNormalDecl,
                isPubConst_initrdDebugDecl]
            · simp [commentLine_ne_kernelDecl, commentLine_ne_initrdNormalDecl,
                commentLine_ne_initrdDebugDecl,
                show commentLine ≠ headerLine1 from by decide,
                show commentLine ≠ headerLine2 from by decide,
                show commentLine ≠ headerLine3 from by decide]
    | false =>
      simp only [hkm, fallbackPolicy, Bool.false_eq_true, if_false] at hok ⊢
      rw [dictLookup_insert_ne _ _ (by decide), dictLookup_insert_ne _ _ (by decide),
        dictLookup_insert_self,
        dictLookup_insert_ne _ _ (by decide), dictLookup_insert_self,
        dictLookup_insert_self] at hok ⊢
      simp only [show format_hex_string [] = some [] from rfl] at hok ⊢
      refine ⟨⟨[], [], [], ?_⟩, ?_⟩
      · simp [List.filter_append, isPubConst_headerLine1, isPubConst_headerLine2,
          isPubConst_headerLine3, isPubConst_kernelDecl, isPubConst_initrdNormalDecl,
          isPubConst_initrdDebugDecl, isPubConst_commentLine]
      · simp

/-- Witness for C9 on a concrete subprocess output containing all three
expected partitions. -/
theorem runMain_output_shape_witness :
    (runMain (some (0, "boot: aa\ninitrd_normal: bb\ninitrd_debug: cc".data))).2 = none
      ∧ ((∃ a b c,
          ((runMain (some (0, "boot: aa\ninitrd_normal: bb\ninitrd_debug: cc".data))).1).filter
              isPubConst =
            [kernelDecl a, initrdNormalDecl b, initrdDebugDecl c])
        ∧ (commentLine ∈
              (runMain (some (0, "boot: aa\ninitrd_normal: bb\ninitrd_debug: cc".data))).1 ↔
            keysMatch
              (collectedMap (some (0, "boot: aa\ninitrd_normal: bb\ninitrd_debug: cc".data))) =
              false)) :=
  ⟨by decide, runMain_output_shape _ (by decide)⟩

end MicrodroidHashes
